import Mathlib

/-!
# smallsh: command parsing, signal toggle and job control

A shallow embedding of `smallsh.c`.  C strings are lists of characters without
the terminating NUL, `pid_t` is `Int`, wait statuses are `Nat`.  Everything the
operating system decides during one call (which children have terminated, what
`fork` returns, the bytes found in uninitialised memory) is passed in explicitly.
-/

namespace Smallsh

/-! ## Constants and C strings -/

def INPUT_SIZE : Nat := 2048

def MAX_ARGS : Nat := 512

def MAX_BG_PROC : Nat := 100

/-- A C string: the bytes before the terminating NUL. -/
abbrev CStr := List Char

/-- The C string stored at the start of a byte buffer: everything before the first NUL. -/
def cstr (buf : List Char) : CStr := buf.takeWhile (fun c => c != '\x00')

/-- Truth of `strcmp(a, b) == 0`. -/
def strcmpEq (a b : CStr) : Bool := a == b

/-- Truth of `strncmp(a, b, n) == 0`: the first `n` bytes of the two strings agree. -/
def strncmpEq (a b : CStr) (n : Nat) : Bool := a.take n == b.take n

/-- Buffer contents after `strncpy(dst, src, n)`: `n` bytes are written, taken from `src`
and padded with NUL when `src` is shorter; no NUL is added otherwise. -/
def strncpy (dst : List Char) (src : CStr) (n : Nat) : List Char :=
  src.take n ++ List.replicate (n - src.length) '\x00' ++ dst.drop n

/-- Buffer contents after `strcpy(dst, src)`: the bytes of `src` and a NUL are written. -/
def strcpy (dst : List Char) (src : CStr) : List Char :=
  src ++ ['\x00'] ++ dst.drop (src.length + 1)

/-- Bytes passed to the terminal by `write(STDOUT_FILENO, msg, n)`. -/
def write (msg : String) (n : Nat) : String := String.mk (msg.toList.take n)

/-! ## Signal handler (`catch_ctrl_z`) -/

/-- One delivery of SIGTSTP: `catch_ctrl_z` acting on the global `bg_flag` and on the
text written to the terminal. -/
def catch_ctrl_z (st : Int × String) : Int × String :=
  if st.1 = 0 then
    (1, st.2 ++ write "Exiting foreground-only mode\n" 29)
  else
    (0, st.2 ++ write "Entering foreground-only mode (& is now ignored)\n" 49)

/-- The handler run `n` times in a row. -/
def deliver : Nat → Int × String → Int × String
  | 0, st => st
  | n + 1, st => deliver n (catch_ctrl_z st)

/-- The texts of a list written one after the other. -/
def concat : List String → String
  | [] => ""
  | x :: xs => x ++ concat xs

/-- The text `s` written `n` times in a row. -/
def copies (s : String) : Nat → String
  | 0 => ""
  | n + 1 => s ++ copies s n

/-! ## Parser (`getCommand`) -/

/-- Ways in which `getCommand` leaves defined behaviour. -/
inductive Fault where
  /-- A NULL returned by `strtok` is handed to `strcpy`. -/
  | nullDeref
  /-- A store to `args[i]` with `i >= MAX_ARGS`. -/
  | argsOverflow
  deriving DecidableEq, Repr

/-- The values `getCommand` leaves in the variables of `main` (which resets them before
every call: buffers zeroed, `args` all NULL, `foreground = 1`).  `args` lists the
non-NULL entries `args[0], args[1], ...`. -/
structure Command where
  command : CStr
  args : List CStr
  in_file : CStr
  out_file : CStr
  foreground : Int
  deriving DecidableEq, Repr

instance : DecidableEq (Except Fault Command) := fun a b =>
  match a, b with
  | .ok x, .ok y =>
    if h : x = y then isTrue (by rw [h]) else isFalse (fun e => h (Except.ok.inj e))
  | .error x, .error y =>
    if h : x = y then isTrue (by rw [h]) else isFalse (fun e => h (Except.error.inj e))
  | .ok _, .error _ => isFalse (fun e => Except.noConfusion e)
  | .error _, .ok _ => isFalse (fun e => Except.noConfusion e)

/-- Delimiters of `strtok(_, " \n")`. -/
def isDelim (c : Char) : Bool := c == ' ' || c == '\n'

/-- Tokens of the rest of the buffer, `cur` being the token under construction. -/
def strtokAux (cur : CStr) : List Char → List CStr
  | [] => if cur = [] then [] else [cur]
  | c :: cs =>
    if isDelim c then
      (if cur = [] then strtokAux [] cs else cur :: strtokAux [] cs)
    else strtokAux (cur ++ [c]) cs

/-- The tokens returned by `strtok(raw_input, " \n")` and the following calls
`strtok(NULL, " \n")`, in order; once the list is exhausted `strtok` returns NULL. -/
def strtokAll (raw_input : CStr) : List CStr := strtokAux [] raw_input

/-- The argument loop (lines 145-169).  The first list is `buffer` followed by the tokens
`strtok` has yet to return; the result is `args`, `foreground` and the same view of
`buffer` when the loop ends. -/
def argLoop : List CStr → List CStr → Int → Except Fault (List CStr × Int × List CStr)
  | [], args, fg => .ok (args, fg, [])
  | buffer :: rest, args, fg =>
    if strcmpEq buffer "<".toList || strcmpEq buffer ">".toList then
      .ok (args, fg, buffer :: rest)
    else if strncmpEq buffer "&".toList 2 then
      match rest with
      | [] => .ok (args, 0, [])
      | next :: rest1 =>
        if args.length < MAX_ARGS then argLoop (next :: rest1) (args ++ ["&".toList]) fg
        else .error .argsOverflow
    else
      if args.length < MAX_ARGS then argLoop rest (args ++ [buffer]) fg
      else .error .argsOverflow

/-- The scan of one argument for `$$` (lines 177-189).  `cur` is the previous character,
`arg` the current contents of `args[i]`, `pre` the bytes of the local buffer `prefix`,
which is never initialised.  The loop re-reads `strlen(args[i])` on each round.  What
`sprintf` stores is taken as the new contents of `args[i]`, also when it is longer than
the block `strdup` allocated. -/
def expandLoop (digits : CStr) : Nat → Nat → Char → CStr → List Char → CStr × List Char
  | 0, _, _, arg, pre => (arg, pre)
  | fuel + 1, j, cur, arg, pre =>
    if j < arg.length then
      if cur = '$' ∧ arg.getD j '\x00' = '$' then
        let pre1 := strncpy pre arg (j - 1)
        expandLoop digits fuel (j + 1) (arg.getD j '\x00') (cstr pre1 ++ digits) (strcpy pre1 [])
      else
        expandLoop digits fuel (j + 1) (arg.getD j '\x00') arg pre
    else (arg, pre)

/-- Rounds that always suffice for `expandLoop` (see `expandLoop_fuel`). -/
def expandFuel (digits arg : CStr) (pre : List Char) : Nat :=
  arg.length + pre.length + digits.length + 1

/-- The loop over `args` (lines 173-191), threading the bytes of `prefix`. -/
def expandArgs (digits : CStr) : List CStr → List Char → List CStr
  | [], _ => []
  | arg :: rest, pre =>
    let r := expandLoop digits (expandFuel digits arg pre) 0 '0' arg pre
    r.1 :: expandArgs digits rest r.2

/-- The redirection loop (lines 194-209), on the same view of `buffer` as `argLoop`. -/
def redirLoop : List CStr → CStr → CStr → Except Fault (CStr × CStr × List CStr)
  | [], in_file, out_file => .ok (in_file, out_file, [])
  | [buffer], in_file, out_file =>
    if strncmpEq buffer "<".toList 1 || strncmpEq buffer ">".toList 1 then .error .nullDeref
    else .ok (in_file, out_file, [buffer])
  | buffer :: path :: rest, in_file, out_file =>
    if strncmpEq buffer "<".toList 1 then redirLoop rest path out_file
    else if strncmpEq buffer ">".toList 1 then redirLoop rest in_file path
    else .ok (in_file, out_file, buffer :: path :: rest)

/-- Model of `getCommand`.  `stack` is what the uninitialised buffer `prefix` holds, `pid`
the result of `getpid()`, `raw_input` the string `fgets` left in the input buffer (empty
when it read nothing). -/
def getCommand (stack : List Char) (pid : Nat) (raw_input : CStr) : Except Fault Command :=
  if raw_input = [] ∨ strncmpEq raw_input "\n".toList 1 ∨ strncmpEq raw_input "#".toList 1 then
    .ok { command := raw_input, args := [], in_file := [], out_file := [], foreground := 1 }
  else
    match strtokAll raw_input with
    | [] => .error .nullDeref
    | buffer :: rest =>
      match argLoop rest [buffer] 1 with
      | .error e => .error e
      | .ok (args, fg, toks) =>
        match redirLoop toks [] [] with
        | .error e => .error e
        | .ok (in_file, out_file, last) =>
          .ok { command := buffer
                args := expandArgs (Nat.toDigits 10 pid) args stack
                in_file := in_file
                out_file := out_file
                foreground :=
                  match last with
                  | [] => fg
                  | b :: _ => if strncmpEq b "&".toList 1 && b.length == 1 then 0 else fg }

/-! ## Job control (`executeCommand`) -/

/-- `WIFEXITED` of `<sys/wait.h>`: `(status & 0x7f) == 0`. -/
def WIFEXITED (status : Nat) : Bool := status % 128 == 0

/-- `WEXITSTATUS` of `<sys/wait.h>`: `(status & 0xff00) >> 8`. -/
def WEXITSTATUS (status : Nat) : Nat := (status / 256) % 256

/-- `WIFSIGNALED` of `<sys/wait.h>`: `((signed char) ((status & 0x7f) + 1) >> 1) > 0`. -/
def WIFSIGNALED (status : Nat) : Bool := 0 < status % 128 && status % 128 < 127

/-- `WTERMSIG` of `<sys/wait.h>`: `status & 0x7f`. -/
def WTERMSIG (status : Nat) : Nat := status % 128

/-- Disposition of SIGINT in a process. -/
inductive Sigint where
  | ignored
  | default
  deriving DecidableEq, Repr

/-- What a standard descriptor of the child is bound to when `execvp` is reached. -/
inductive Fd where
  | inherited
  | file (path : CStr)
  | devNull
  deriving DecidableEq, Repr

/-- The child between `fork` and `execvp`, every call succeeding (a failing `open`,
`dup2` or `execvp` makes the child print a diagnostic and `exit(1)`). -/
structure Child where
  sigint : Sigint
  stdin : Fd
  stdout : Fd
  file : Option CStr
  argv : List CStr
  deriving DecidableEq, Repr

/-- Process-control calls made by the shell, in order. -/
inductive Sys where
  | waitAny
  | chdirHome
  | chdir (path : CStr)
  | kill (pid : Int)
  | fork
  | perror (msg : String)
  | waitBlocking (pid : Int)
  | waitNoHang (pid : Int)
  deriving DecidableEq, Repr

/-- The state `executeCommand` works on: the global `bg_pids`, `exit_method` of `main`,
the text printed on standard output and the calls made. -/
structure Shell where
  bg_pids : List Int
  exit_method : Nat
  out : String
  sys : List Sys
  deriving DecidableEq, Repr

/-- What the operating system answers during one call of `executeCommand`. -/
structure Os where
  /-- Children returned by the successive `waitpid(-1, exit_method, WNOHANG)`, with their
  statuses; after the last one the call returns 0 or -1 and stores nothing. -/
  reaped : List (Int × Nat)
  /-- The `int` read at `bg_pids[MAX_BG_PROC]`, one past the end of the array. -/
  oob : Int
  /-- Whether `chdir` succeeds. -/
  chdirOk : Bool
  /-- Return value of `fork`. -/
  forkResult : Int
  /-- Status stored by the blocking `waitpid(pid, exit_method, 0)`, taken to return once
  the child has terminated (an interruption of the call by a signal is not modelled). -/
  fgStatus : Nat
  /-- Status stored by `waitpid(pid, exit_method, WNOHANG)` right after a background
  launch, if the child has already terminated by then. -/
  bgPoll : Option Nat

/-- How a call of `executeCommand` ends. -/
inductive Outcome where
  /-- Control returns to the loop of `main`. -/
  | returned (s : Shell)
  /-- The shell process called `exit(code)`. -/
  | exited (code : Nat) (s : Shell)
  /-- This process is the forked child (`fork` returned 0). -/
  | inChild (c : Child) (s : Shell)
  deriving DecidableEq, Repr

/-- The loop `while (bg_pids[i] != pid && i < MAX_BG_PROC) ++i;` started at `i`; each round
reads `bg_pids[i]` before it tests the bound.  Returns the final `i`. -/
def scanLoop (bg_pids : List Int) (oob pid : Int) : Nat → Nat → Nat
  | 0, i => i
  | fuel + 1, i =>
    if bg_pids.getD i oob ≠ pid ∧ i < MAX_BG_PROC then scanLoop bg_pids oob pid fuel (i + 1)
    else i

/-- The value of `i` after the scan for `pid` from `i = 0`; `MAX_BG_PROC + 1` tests of the
loop condition always suffice (`scanLoop_fuel`). -/
def scan (bg_pids : List Int) (oob pid : Int) : Nat :=
  scanLoop bg_pids oob pid (MAX_BG_PROC + 1) 0

/-- Text of the two `printf` calls that classify a wait status (lines 246-259, 329-342). -/
def describe (status : Nat) : String :=
  if WIFEXITED status then "exit value " ++ toString (WEXITSTATUS status) ++ "\n"
  else if WIFSIGNALED status then "terminated by signal " ++ toString (WTERMSIG status) ++ "\n"
  else ""

/-- The clean-up loop (lines 242-277): one round per child that `waitpid` returns. -/
def reapLoop (oob : Int) : List (Int × Nat) → Shell → Shell
  | [], s => { s with sys := s.sys ++ [Sys.waitAny] }
  | (pid, status) :: rest, s =>
    if pid > 0 then
      let i := scan s.bg_pids oob pid
      reapLoop oob rest
        { bg_pids := if i = MAX_BG_PROC then s.bg_pids else s.bg_pids.set i (-1)
          exit_method := status
          out := s.out ++ ("background pid " ++ toString pid ++ " is done: ") ++ describe status
          sys := s.sys ++ [Sys.waitAny] }
    else { s with sys := s.sys ++ [Sys.waitAny] }

/-- The assignment `ctrl_c.sa_handler = h`: the handler the structure carries afterwards. -/
def setHandler (_ctrl_c : Sigint) (h : Sigint) : Sigint := h

/-- The child's side of the `switch` (case 0, lines 358-410).  `ctrl_c` is the `sigaction`
passed by `main`, whose handler the child overwrites before it installs it with `sigaction`. -/
def childSide (args : List CStr) (in_file : CStr) (ctrl_c : Sigint) (out_file : CStr)
    (foreground bg_flag : Int) : Child :=
  { sigint := setHandler ctrl_c Sigint.default
    stdin :=
      if !strcmpEq in_file [] then Fd.file in_file
      else if bg_flag = 1 ∧ foreground = 0 then Fd.devNull
      else Fd.inherited
    stdout :=
      if !strcmpEq out_file [] then Fd.file out_file
      else if bg_flag = 1 ∧ foreground = 0 then Fd.devNull
      else Fd.inherited
    file := args.head?
    argv := args }

/-- The parent's side of the `switch` (default case, lines 413-447), `pid` being the
child's process id. -/
def parentSide (os : Os) (pid : Int) (foreground bg_flag : Int) (s : Shell) : Outcome :=
  if foreground = 1 ∨ bg_flag = 0 then
    .returned
      { s with
        exit_method := os.fgStatus
        out :=
          if WIFSIGNALED os.fgStatus then
            s.out ++ ("terminated by signal " ++ toString (WTERMSIG os.fgStatus) ++ "\n")
          else s.out
        sys := s.sys ++ [Sys.waitBlocking pid] }
  else
    let s1 : Shell :=
      { s with
        exit_method := os.bgPoll.getD s.exit_method
        out := s.out ++ ("background pid is " ++ toString pid ++ "\n")
        sys := s.sys ++ [Sys.waitNoHang pid] }
    let i := scan s1.bg_pids os.oob (-1)
    if i = MAX_BG_PROC then
      .exited 1 { s1 with out := s1.out ++ "Ran out of slots for background processes!\n" }
    else
      .returned { s1 with bg_pids := s1.bg_pids.set i pid }

/-- Model of `executeCommand`.  The test `exit_method == NULL` of the `status` branch is on
the address of a variable of `main` and never holds. -/
def executeCommand (os : Os) (command : CStr) (args : List CStr) (in_file : CStr)
    (ctrl_c : Sigint) (out_file : CStr) (foreground : Int) (s0 : Shell) (bg_flag : Int) :
    Outcome :=
  let s := reapLoop os.oob os.reaped s0
  if strncmpEq command "\n".toList 1 || strncmpEq command "#".toList 1 then
    .returned s
  else if strcmpEq command "cd".toList then
    match args with
    | _ :: dir :: _ =>
      .returned
        { s with
          out := if os.chdirOk then s.out else s.out ++ "Error changing to specified directory\n"
          sys := s.sys ++ [Sys.chdir dir] }
    | _ =>
      .returned
        { s with
          out := if os.chdirOk then s.out else s.out ++ "Error changing to HOME directory\n"
          sys := s.sys ++ [Sys.chdirHome] }
  else if strcmpEq command "exit".toList then
    .exited 0
      { s with sys := s.sys ++ (s.bg_pids.take MAX_BG_PROC).filterMap
                  (fun p => if p ≠ -1 then some (Sys.kill p) else none) }
  else if strcmpEq command "status".toList then
    .returned { s with out := s.out ++ describe s.exit_method }
  else
    let s1 : Shell := { s with sys := s.sys ++ [Sys.fork] }
    if os.forkResult = -1 then
      .returned { s1 with sys := s1.sys ++ [Sys.perror "Fork failure\n"] }
    else if os.forkResult = 0 then
      .inChild (childSide args in_file ctrl_c out_file foreground bg_flag) s1
    else
      parentSide os os.forkResult foreground bg_flag s1

/-- The disposition `main` installs for SIGINT in the shell (lines 49-52), inherited by
every child at `fork`. -/
def shellSigint : Sigint := Sigint.ignored

/-- The state `main` sets up before its loop (lines 59-66). -/
def initShell : Shell :=
  { bg_pids := List.replicate MAX_BG_PROC (-1), exit_method := 0, out := "", sys := [] }

/-- One cycle of the loop of `main`: `getCommand`, then `executeCommand` on its results.
A fault of the parser ends the run (`none`). -/
def cycle (os : Os) (stack : List Char) (shell_pid : Nat) (raw_input : CStr) (bg_flag : Int)
    (s : Shell) : Option Outcome :=
  match getCommand stack shell_pid raw_input with
  | .error _ => none
  | .ok c =>
    some (executeCommand os c.command c.args c.in_file shellSigint c.out_file c.foreground s
      bg_flag)

/-- A table whose `MAX_BG_PROC` slots hold the live pids 1001, ..., 1100. -/
def fullTable : List Int := (List.range MAX_BG_PROC).map (fun i => 1001 + (i : Int))

/-! ## The signal handler -/

theorem write_exiting : write "Exiting foreground-only mode\n" 29 =
    "Exiting foreground-only mode\n" := by decide

theorem write_entering : write "Entering foreground-only mode (& is now ignored)\n" 49 =
    "Entering foreground-only mode (& is now ignored)\n" := by decide

theorem catch_ctrl_z_twice (bg_flag : Int) (h : bg_flag = 0 ∨ bg_flag = 1) (out : String) :
    catch_ctrl_z (catch_ctrl_z (bg_flag, out)) =
      (bg_flag, out ++
        ((if bg_flag = 1 then "Entering foreground-only mode (& is now ignored)\n"
          else "Exiting foreground-only mode\n") ++
         (if bg_flag = 1 then "Exiting foreground-only mode\n"
          else "Entering foreground-only mode (& is now ignored)\n"))) := by
  rcases h with h | h <;> subst h <;>
    simp [catch_ctrl_z, write_exiting, write_entering, String.append_assoc]

/-- C9: for a flag that is 0 or 1, `2 * n` deliveries of the toggle signal restore the flag
and write `n` pairs of banners, "Entering" first when the flag was 1 and "Exiting" first
when it was 0; a single delivery inverts the flag and writes exactly one banner. -/
theorem toggle_even_restores (bg_flag : Int) (h : bg_flag = 0 ∨ bg_flag = 1) (n : Nat)
    (out : String) :
    deliver (2 * n) (bg_flag, out) =
        (bg_flag, out ++ copies
          ((if bg_flag = 1 then "Entering foreground-only mode (& is now ignored)\n"
            else "Exiting foreground-only mode\n") ++
           (if bg_flag = 1 then "Exiting foreground-only mode\n"
            else "Entering foreground-only mode (& is now ignored)\n")) n) ∧
      catch_ctrl_z (bg_flag, out) =
        (1 - bg_flag, out ++
          (if bg_flag = 1 then "Entering foreground-only mode (& is now ignored)\n"
           else "Exiting foreground-only mode\n")) := by
  constructor
  · induction n generalizing out with
    | zero => simp [deliver, copies]
    | succ k ih =>
      have e : 2 * (k + 1) = (2 * k + 1) + 1 := by ring
      rw [e, deliver, deliver, catch_ctrl_z_twice bg_flag h, ih]
      simp [copies, String.append_assoc]
  · rcases h with h | h <;> subst h <;> simp [catch_ctrl_z, write_exiting, write_entering]

theorem toggle_even_restores_witness :
    deliver (2 * 2) (1, "") =
      (1, "Entering foreground-only mode (& is now ignored)\nExiting foreground-only mode\n" ++
          "Entering foreground-only mode (& is now ignored)\nExiting foreground-only mode\n") ∧
    catch_ctrl_z (1, "") = (0, "Entering foreground-only mode (& is now ignored)\n") := by
  have h := toggle_even_restores 1 (Or.inr rfl) 2 ""
  simpa [copies] using h

/-! ## The scan of `bg_pids` -/

theorem scanLoop_spec (bg_pids : List Int) (oob pid : Int) :
    ∀ fuel i, MAX_BG_PROC - i < fuel → i ≤ MAX_BG_PROC →
      i ≤ scanLoop bg_pids oob pid fuel i ∧
      scanLoop bg_pids oob pid fuel i ≤ MAX_BG_PROC ∧
      (∀ k, i ≤ k → k < scanLoop bg_pids oob pid fuel i → bg_pids.getD k oob ≠ pid) ∧
      (scanLoop bg_pids oob pid fuel i < MAX_BG_PROC →
        bg_pids.getD (scanLoop bg_pids oob pid fuel i) oob = pid) := by
  intro fuel
  induction fuel with
  | zero => intro i h; omega
  | succ f ih =>
    intro i hf hi
    unfold scanLoop
    by_cases hc : bg_pids.getD i oob ≠ pid ∧ i < MAX_BG_PROC
    · rw [if_pos hc]
      obtain ⟨h1, h2, h3, h4⟩ := ih (i + 1) (by omega) (by omega)
      refine ⟨by omega, h2, ?_, h4⟩
      intro k hk1 hk2
      by_cases hk : k = i
      · subst hk; exact hc.1
      · exact h3 k (by omega) hk2
    · rw [if_neg hc]
      refine ⟨le_refl _, hi, ?_, ?_⟩
      · intro k hk1 hk2; omega
      · intro hlt
        by_contra hne
        exact hc ⟨hne, hlt⟩

/-- The scan stops through its own condition: more rounds change nothing, and the byte
past the end of the array has no influence on the index found. -/
theorem scan_spec (bg_pids : List Int) (oob pid : Int) (hlen : bg_pids.length = MAX_BG_PROC) :
    scan bg_pids oob pid ≤ MAX_BG_PROC ∧
    (∀ k, k < scan bg_pids oob pid → bg_pids[k]? ≠ some pid) ∧
    (scan bg_pids oob pid < MAX_BG_PROC → bg_pids[scan bg_pids oob pid]? = some pid) := by
  obtain ⟨_, h2, h3, h4⟩ := scanLoop_spec bg_pids oob pid (MAX_BG_PROC + 1) 0 (by omega) (by omega)
  refine ⟨h2, ?_, ?_⟩
  · intro k hk
    have hk' : k < bg_pids.length := by rw [hlen]; exact lt_of_lt_of_le hk h2
    have := h3 k (Nat.zero_le _) hk
    rw [List.getElem?_eq_getElem hk']
    rw [List.getD_eq_getElem _ _ hk'] at this
    intro he
    exact this (Option.some.inj he)
  · intro hlt
    have hk' : scan bg_pids oob pid < bg_pids.length := by rw [hlen]; exact hlt
    have := h4 hlt
    rw [List.getElem?_eq_getElem hk']
    change bg_pids.getD (scan bg_pids oob pid) oob = pid at this
    rw [List.getD_eq_getElem _ _ hk'] at this
    rw [this]

/-- Clearing the slot the scan finds clears every slot that holds `pid`, when no two live
slots hold the same pid. -/
theorem clear_eq_map (bg_pids : List Int) (oob pid : Int)
    (hlen : bg_pids.length = MAX_BG_PROC)
    (hdist : ∀ (i j : Nat) (p : Int), bg_pids[i]? = some p → bg_pids[j]? = some p → p ≠ -1 → i = j)
    (hp : pid ≠ -1) :
    (if scan bg_pids oob pid = MAX_BG_PROC then bg_pids
      else bg_pids.set (scan bg_pids oob pid) (-1)) =
      bg_pids.map (fun p => if p = pid then -1 else p) := by
  obtain ⟨h1, h2, h3⟩ := scan_spec bg_pids oob pid hlen
  apply List.ext_getElem?
  intro k
  rw [List.getElem?_map]
  by_cases hr : scan bg_pids oob pid = MAX_BG_PROC
  · rw [if_pos hr]
    cases hk : bg_pids[k]? with
    | none => rfl
    | some p =>
      have hkl : k < MAX_BG_PROC := by
        have := (List.getElem?_eq_some_iff.mp hk).1
        omega
      have hne : p ≠ pid := by
        intro he
        exact h2 k (by omega) (by rw [hk, he])
      simp [hne]
  · rw [if_neg hr]
    have hlt : scan bg_pids oob pid < MAX_BG_PROC := lt_of_le_of_ne h1 hr
    have hfound := h3 hlt
    by_cases hkr : scan bg_pids oob pid = k
    · subst hkr
      rw [List.getElem?_set_self, hfound]
      · simp
      · omega
    · rw [List.getElem?_set_ne hkr]
      cases hk : bg_pids[k]? with
      | none => rfl
      | some p =>
        have hne : p ≠ pid := by
          intro he
          subst he
          exact hkr (hdist _ _ _ hfound hk hp)
        simp [hne]

theorem map_clear_distinct (bg_pids : List Int) (pid : Int)
    (hdist : ∀ (i j : Nat) (p : Int), bg_pids[i]? = some p → bg_pids[j]? = some p → p ≠ -1 → i = j) :
    ∀ (i j : Nat) (p : Int), (bg_pids.map (fun p => if p = pid then -1 else p))[i]? = some p →
      (bg_pids.map (fun p => if p = pid then -1 else p))[j]? = some p → p ≠ -1 → i = j := by
  intro i j p hi hj hp
  rw [List.getElem?_map] at hi hj
  have key : ∀ k : Nat, Option.map (fun p => if p = pid then (-1 : Int) else p) bg_pids[k]? = some p →
      bg_pids[k]? = some p := by
    intro k hk
    cases hq : bg_pids[k]? with
    | none => rw [hq] at hk; simp at hk
    | some q =>
      rw [hq] at hk
      simp only [Option.map_some'] at hk
      by_cases hqp : q = pid
      · rw [if_pos hqp] at hk
        exact absurd (Option.some.inj hk).symm hp
      · rw [if_neg hqp] at hk
        exact hk
  exact hdist i j p (key i hi) (key j hj) hp
theorem reapLoop_spec (oob : Int) (reaped : List (Int × Nat)) :
    ∀ s : Shell, s.bg_pids.length = MAX_BG_PROC →
      (∀ (i j : Nat) (p : Int), s.bg_pids[i]? = some p → s.bg_pids[j]? = some p → p ≠ -1 → i = j) →
      (∀ c ∈ reaped, 0 < c.1) →
      (reapLoop oob reaped s).out =
        s.out ++ concat (reaped.map (fun c =>
          ("background pid " ++ toString c.1 ++ " is done: ") ++ describe c.2)) ∧
      (reapLoop oob reaped s).bg_pids =
        s.bg_pids.map (fun p => if p ∈ reaped.map Prod.fst then -1 else p) := by
  induction reaped with
  | nil => intro s _ _ _; simp [reapLoop, concat]
  | cons c rest ih =>
    intro s hlen hdist hpos
    obtain ⟨pid, status⟩ := c
    have hpid : 0 < pid := hpos (pid, status) (List.mem_cons_self _ _)
    have hne : pid ≠ -1 := by omega
    have hrest : ∀ c ∈ rest, 0 < c.1 := fun c hc => hpos c (List.mem_cons_of_mem _ hc)
    have hclear := clear_eq_map s.bg_pids oob pid hlen hdist hne
    rw [reapLoop, if_pos hpid]
    simp only []
    rw [hclear]
    obtain ⟨h1, h2⟩ := ih
      { bg_pids := s.bg_pids.map (fun p => if p = pid then -1 else p)
        exit_method := status
        out := s.out ++ ("background pid " ++ toString pid ++ " is done: ") ++ describe status
        sys := s.sys ++ [Sys.waitAny] }
      (by simp [hlen]) (map_clear_distinct s.bg_pids pid hdist) hrest
    constructor
    · rw [h1]
      simp [concat, String.append_assoc]
    · rw [h2]
      simp only [List.map_map, List.map_cons, List.mem_cons]
      apply List.map_congr_left
      intro p _
      simp only [Function.comp]
      by_cases hp : p = pid
      · simp only [hp, if_true, true_or]
        have : (-1 : Int) ∉ rest.map Prod.fst := by
          intro hm
          obtain ⟨c, hc, he⟩ := List.mem_map.mp hm
          have := hrest c hc
          omega
        simp [this]
      · rw [if_neg hp]
        simp only [hp, false_or]
theorem distinct_of_nodup (l : List Int) (h : (l.filter (fun p => p ≠ -1)).Nodup) :
    ∀ (i j : Nat) (p : Int), l[i]? = some p → l[j]? = some p → p ≠ -1 → i = j := by
  rw [List.Nodup, List.pairwise_filter, List.pairwise_iff_getElem] at h
  intro i j p hi hj hp
  obtain ⟨hil, hie⟩ := List.getElem?_eq_some_iff.mp hi
  obtain ⟨hjl, hje⟩ := List.getElem?_eq_some_iff.mp hj
  rcases Nat.lt_trichotomy i j with hlt | heq | hgt
  · exact absurd (hie.trans hje.symm) (h i j hil hjl hlt (by rw [hie]; exact hp) (by rw [hje]; exact hp))
  · exact heq
  · exact absurd (hje.trans hie.symm) (h j i hjl hil hgt (by rw [hje]; exact hp) (by rw [hie]; exact hp))

/-- C8: on a job table of `MAX_BG_PROC` slots whose live entries are pairwise distinct, a
sweep that is handed the terminated children `reaped` (pids positive, each status a normal
exit or a termination by signal) prints exactly one line per child, in order,
`background pid <pid> is done: exit value <code>` or
`background pid <pid> is done: terminated by signal <number>`; afterwards every slot that
held a reaped pid holds -1 and every other slot is unchanged, so that reaping pids that
are not in the table leaves the table as it was. -/
theorem reaper_sweep (oob : Int) (reaped : List (Int × Nat)) (s : Shell)
    (hlen : s.bg_pids.length = MAX_BG_PROC)
    (hdist : (s.bg_pids.filter (fun p => p ≠ -1)).Nodup)
    (hpos : ∀ c ∈ reaped, 0 < c.1)
    (hterm : ∀ c ∈ reaped, WIFEXITED c.2 = true ∨ WIFSIGNALED c.2 = true) :
    (reapLoop oob reaped s).out =
        s.out ++ concat (reaped.map (fun c =>
          "background pid " ++ toString c.1 ++ " is done: " ++
            (if WIFEXITED c.2 = true then "exit value " ++ toString (WEXITSTATUS c.2) ++ "\n"
             else "terminated by signal " ++ toString (WTERMSIG c.2) ++ "\n"))) ∧
      (reapLoop oob reaped s).bg_pids =
        s.bg_pids.map (fun p => if p ∈ reaped.map Prod.fst then -1 else p) ∧
      ((∀ c ∈ reaped, c.1 ∉ s.bg_pids) → (reapLoop oob reaped s).bg_pids = s.bg_pids) := by
  obtain ⟨h1, h2⟩ := reapLoop_spec oob reaped s hlen (distinct_of_nodup _ hdist) hpos
  refine ⟨?_, h2, ?_⟩
  · rw [h1]
    congr 2
    apply List.map_congr_left
    intro c hc
    rcases hterm c hc with h | h
    · simp [describe, h]
    · by_cases he : WIFEXITED c.2 = true
      · simp [describe, he]
      · simp [describe, he, h]
  · intro hnot
    rw [h2]
    conv_rhs => rw [← List.map_id s.bg_pids]
    apply List.map_congr_left
    intro p hp
    have : p ∉ reaped.map Prod.fst := by
      intro hm
      obtain ⟨c, hc, he⟩ := List.mem_map.mp hm
      exact hnot c hc (he ▸ hp)
    simp [this]

theorem reaper_sweep_witness :
    (reapLoop 0 [(77, 768), (78, 15), (79, 0)]
        { bg_pids := ((List.replicate MAX_BG_PROC (-1)).set 0 78).set 2 77
          exit_method := 0, out := ": ", sys := [] }).out =
      ": background pid 77 is done: exit value 3\n" ++
        "background pid 78 is done: terminated by signal 15\n" ++
        "background pid 79 is done: exit value 0\n" ∧
    (reapLoop 0 [(77, 768), (78, 15), (79, 0)]
        { bg_pids := ((List.replicate MAX_BG_PROC (-1)).set 0 78).set 2 77
          exit_method := 0, out := ": ", sys := [] }).bg_pids =
      List.replicate MAX_BG_PROC (-1) := by
  have h := reaper_sweep 0 [(77, 768), (78, 15), (79, 0)]
    { bg_pids := ((List.replicate MAX_BG_PROC (-1)).set 0 78).set 2 77
      exit_method := 0, out := ": ", sys := [] }
    (by decide) (by decide) (by decide) (by decide)
  refine ⟨?_, ?_⟩
  · rw [h.1]; decide
  · rw [h.2.1]; decide

/-! ## The launcher -/

theorem scan_full_table (bg_pids : List Int) (oob : Int) (hlen : bg_pids.length = MAX_BG_PROC)
    (hfull : -1 ∉ bg_pids) : scan bg_pids oob (-1) = MAX_BG_PROC := by
  obtain ⟨h1, _, h3⟩ := scan_spec bg_pids oob (-1) hlen
  by_contra hne
  have hlt : scan bg_pids oob (-1) < MAX_BG_PROC := lt_of_le_of_ne h1 hne
  exact hfull (List.getElem?_mem (h3 hlt))

/-- C2 (amended): a background launch on a table of `MAX_BG_PROC` slots none of which is
free prints the child's pid and the capacity error and then ends the shell process with
`exit(1)`; the pid is not stored.  The value read past the end of the array plays no role. -/
theorem launch_table_full_exits (os : Os) (pid : Int) (s : Shell)
    (hlen : s.bg_pids.length = MAX_BG_PROC) (hfull : -1 ∉ s.bg_pids) :
    parentSide os pid 0 1 s =
      Outcome.exited 1
        { bg_pids := s.bg_pids
          exit_method := os.bgPoll.getD s.exit_method
          out := s.out ++ ("background pid is " ++ toString pid ++ "\n") ++
            "Ran out of slots for background processes!\n"
          sys := s.sys ++ [Sys.waitNoHang pid] } := by
  have hcond : ¬((0 : Int) = 1 ∨ (1 : Int) = 0) := by decide
  unfold parentSide
  rw [if_neg hcond]
  simp only []
  rw [if_pos (scan_full_table s.bg_pids os.oob hlen hfull)]

theorem launch_table_full_exits_witness :
    parentSide ⟨[], -1, true, 4242, 0, none⟩ 4242 0 1
        { bg_pids := fullTable, exit_method := 0, out := ": ", sys := [] } =
      Outcome.exited 1
        { bg_pids := fullTable
          exit_method := 0
          out := ": background pid is 4242\nRan out of slots for background processes!\n"
          sys := [Sys.waitNoHang 4242] } := by
  have h := launch_table_full_exits ⟨[], -1, true, 4242, 0, none⟩ 4242
    { bg_pids := fullTable, exit_method := 0, out := ": ", sys := [] }
    (by decide) (by decide)
  rw [h]
  decide

/-- C2 (counterexample): `sleep 5 &` entered with background allowed while the table holds
100 live pids: the cycle ends with the shell process calling `exit(1)`; it does not
return to the loop of `main`. -/
theorem launch_table_full_counterexample :
    cycle ⟨[], 0, true, 4242, 0, none⟩ [] 1234 "sleep 5 &\n".toList 1
        { bg_pids := fullTable, exit_method := 0, out := "", sys := [] } =
      some (Outcome.exited 1
        { bg_pids := fullTable
          exit_method := 0
          out := "background pid is 4242\nRan out of slots for background processes!\n"
          sys := [Sys.waitAny, Sys.fork, Sys.waitNoHang 4242] }) := by
  decide

/-! ## The `status` built-in and `exit_method` -/

/-- C10 (code at the failing input): the child of a background launch (`sleep 100 &` with
`bg_flag = 1`) installs the default disposition for SIGINT like any other child: the
assignment of `SIG_DFL` is not guarded by the execution mode. -/
theorem background_child_sigint_default :
    cycle ⟨[], 0, true, 0, 0, none⟩ [] 1234 "sleep 100 &\n".toList 1 initShell =
        some (Outcome.inChild
          { sigint := Sigint.default
            stdin := Fd.devNull
            stdout := Fd.devNull
            file := some "sleep".toList
            argv := ["sleep".toList, "100".toList] }
          { initShell with sys := [Sys.waitAny, Sys.fork] }) ∧
      ∀ (args : List CStr) (in_file out_file : CStr) (ctrl_c : Sigint) (foreground bg_flag : Int),
        (childSide args in_file ctrl_c out_file foreground bg_flag).sigint = Sigint.default := by
  refine ⟨by decide, ?_⟩
  intro args in_file out_file ctrl_c foreground bg_flag
  rfl

/-! ## Empty input -/

/-- C5 (code at the failing input): when `fgets` stores nothing (end of input, or a read
interrupted by a signal) `getCommand` returns the empty command, and `executeCommand`,
whose test for a blank command looks for a newline or `#` only, forks a child for it and
waits: `exit_method` becomes the status of that child. -/
theorem empty_input_forks :
    getCommand [] 1234 [] =
        Except.ok { command := [], args := [], in_file := [], out_file := [], foreground := 1 } ∧
      cycle ⟨[], 0, true, 4242, 256, none⟩ [] 1234 [] 1 initShell =
        some (Outcome.returned
          { initShell with
            exit_method := 256
            sys := [Sys.waitAny, Sys.fork, Sys.waitBlocking 4242] }) ∧
      cycle ⟨[], 0, true, 0, 0, none⟩ [] 1234 [] 1 initShell =
        some (Outcome.inChild
          { sigint := Sigint.default, stdin := Fd.inherited, stdout := Fd.inherited
            file := none, argv := [] }
          { initShell with sys := [Sys.waitAny, Sys.fork] }) := by
  refine ⟨rfl, by decide, by decide⟩

/-- Lines that start with a newline or with `#` trigger nothing beyond the sweep. -/
theorem blank_or_comment_no_action (os : Os) (stack : List Char) (shell_pid : Nat)
    (c : Char) (rest : CStr) (bg_flag : Int) (s : Shell) (hc : c = '\n' ∨ c = '#') :
    getCommand stack shell_pid (c :: rest) =
        Except.ok { command := c :: rest, args := [], in_file := [], out_file := [],
                    foreground := 1 } ∧
      cycle os stack shell_pid (c :: rest) bg_flag s =
        some (Outcome.returned (reapLoop os.oob os.reaped s)) := by
  have hg : getCommand stack shell_pid (c :: rest) =
      Except.ok { command := c :: rest, args := [], in_file := [], out_file := [],
                  foreground := 1 } := by
    rcases hc with h | h <;> subst h <;> simp [getCommand, strncmpEq]
  refine ⟨hg, ?_⟩
  unfold cycle
  rw [hg]
  rcases hc with h | h <;> subst h <;> simp [executeCommand, strncmpEq]

/-! ## Redirection without a target -/

/-- C4 (code at the failing input): on `cat <` the redirection loop asks `strtok` for the
path, gets NULL and hands it to `strcpy`; no parse error is returned.  The same happens
for `>` and after a complete redirection. -/
theorem redirect_without_target_faults :
    getCommand [] 1234 "cat <\n".toList = Except.error Fault.nullDeref ∧
      getCommand [] 1234 "cat >\n".toList = Except.error Fault.nullDeref ∧
      getCommand [] 1234 "cat < in >\n".toList = Except.error Fault.nullDeref := by
  refine ⟨rfl, rfl, rfl⟩

/-! ## The argument loop and `&` -/

theorem strncmpEq_amp (t : CStr) : strncmpEq t "&".toList 2 = true ↔ t = ['&'] := by
  have e : "&".toList = ['&'] := rfl
  rw [e]
  unfold strncmpEq
  rcases t with _ | ⟨a, _ | ⟨b, t⟩⟩ <;> simp

/-- The arguments a token sequence after the program name contributes: all of them, except
a final `&`. -/
theorem argLoop_no_redirect (ts : List CStr) :
    ∀ (args : List CStr) (fg : Int),
      (∀ t ∈ ts, t ≠ ['<'] ∧ t ≠ ['>']) →
      args.length + ts.length ≤ MAX_ARGS →
      argLoop ts args fg =
        Except.ok
          (args ++ (if ts.getLast? = some ['&'] then ts.dropLast else ts),
           (if ts.getLast? = some ['&'] then 0 else fg), []) := by
  induction ts with
  | nil => intro args fg _ _; simp [argLoop]
  | cons t rest ih =>
    intro args fg hred hlen
    have ht := hred t (List.mem_cons_self _ _)
    have hrest : ∀ u ∈ rest, u ≠ ['<'] ∧ u ≠ ['>'] :=
      fun u hu => hred u (List.mem_cons_of_mem _ hu)
    have hnr : (strcmpEq t "<".toList || strcmpEq t ">".toList) = false := by
      have e1 : "<".toList = ['<'] := rfl
      have e2 : ">".toList = ['>'] := rfl
      rw [e1, e2]
      simp [strcmpEq, ht.1, ht.2]
    have hlen1 : args.length < MAX_ARGS := by
      simp only [List.length_cons] at hlen; omega
    have hlen2 : ∀ u : CStr, (args ++ [u]).length + rest.length ≤ MAX_ARGS := by
      intro u
      simp only [List.length_append, List.length_cons, List.length_nil] at hlen ⊢; omega
    by_cases hamp : t = ['&']
    · have hcmp := (strncmpEq_amp t).mpr hamp
      cases rest with
      | nil =>
        simp only [argLoop, hnr, hcmp, if_true, Bool.false_eq_true, if_false]
        simp [hamp]
      | cons next rest1 =>
        simp only [argLoop, hnr, hcmp, if_true, Bool.false_eq_true, if_false, hlen1]
        have e : "&".toList = ['&'] := rfl
        rw [e, ih (args ++ [['&']]) fg hrest (hlen2 _)]
        rw [List.getLast?_cons_cons]
        by_cases hl : (next :: rest1).getLast? = some ['&']
        · simp [hl, hamp, List.dropLast]
        · simp only [hl, if_false, hamp, List.append_assoc, List.singleton_append]
    · have hcmp : strncmpEq t "&".toList 2 = false := by
        cases h : strncmpEq t "&".toList 2
        · rfl
        · exact absurd ((strncmpEq_amp t).mp h) hamp
      cases rest with
      | nil =>
        simp only [argLoop, hnr, hcmp, if_true, Bool.false_eq_true, if_false, hlen1]
        simp [hamp]
      | cons next rest1 =>
        rw [argLoop]
        simp only [hnr, hcmp, if_true, Bool.false_eq_true, if_false, hlen1]
        rw [ih (args ++ [t]) fg hrest (hlen2 _)]
        rw [List.getLast?_cons_cons]
        by_cases hl : (next :: rest1).getLast? = some ['&']
        · simp [hl, List.dropLast]
        · simp only [hl, if_false, List.append_assoc, List.singleton_append]
theorem adjacent_dollars_contained (arg : CStr) (k : Nat) (h0 : arg[k]? = some '$')
    (h1 : arg[k + 1]? = some '$') : ['$', '$'] <:+: arg := by
  obtain ⟨hk0, e0⟩ := List.getElem?_eq_some_iff.mp h0
  obtain ⟨hk1, e1⟩ := List.getElem?_eq_some_iff.mp h1
  refine ⟨arg.take k, arg.drop (k + 2), ?_⟩
  have d0 : arg.drop k = '$' :: arg.drop (k + 1) := by
    rw [List.drop_eq_getElem_cons hk0, e0]
  have d1 : arg.drop (k + 1) = '$' :: arg.drop (k + 2) := by
    rw [List.drop_eq_getElem_cons hk1, e1]
  calc arg.take k ++ ['$', '$'] ++ arg.drop (k + 2)
      = arg.take k ++ ('$' :: '$' :: arg.drop (k + 2)) := by simp
    _ = arg.take k ++ arg.drop k := by rw [d0, d1]
    _ = arg := List.take_append_drop k arg

/-- An argument without `$$` passes the scan unchanged, and so does `prefix`, whatever it
holds and however many rounds are granted. -/
theorem expandLoop_no_dollar (digits : CStr) (arg : CStr) (hno : ¬ (['$', '$'] <:+: arg)) :
    ∀ (fuel j : Nat) (cur : Char) (pre : List Char),
      (cur = '$' → ∃ k, j = k + 1 ∧ arg[k]? = some '$') →
      expandLoop digits fuel j cur arg pre = (arg, pre) := by
  intro fuel
  induction fuel with
  | zero => intro j cur pre _; rfl
  | succ f ih =>
    intro j cur pre hcur
    unfold expandLoop
    by_cases hj : j < arg.length
    · rw [if_pos hj]
      have hget : arg[j]? = some (arg.getD j '\x00') := by
        rw [List.getD_eq_getElem _ _ hj, List.getElem?_eq_getElem hj]
      have hcond : ¬(cur = '$' ∧ arg.getD j '\x00' = '$') := by
        rintro ⟨hc, hd⟩
        obtain ⟨k, hk, hk0⟩ := hcur hc
        subst hk
        rw [hd] at hget
        exact hno (adjacent_dollars_contained arg k hk0 hget)
      rw [if_neg hcond]
      apply ih
      intro hd
      exact ⟨j, rfl, by rw [hget, hd]⟩
    · rw [if_neg hj]

theorem expandArgs_no_dollar (digits : CStr) (args : List CStr) :
    ∀ pre : List Char, (∀ t ∈ args, ¬ (['$', '$'] <:+: t)) →
      expandArgs digits args pre = args := by
  induction args with
  | nil => intro pre _; rfl
  | cons a rest ih =>
    intro pre hno
    have ha := hno a (List.mem_cons_self _ _)
    have hl := expandLoop_no_dollar digits a ha (expandFuel digits a pre) 0 '0' pre
      (by intro h; exact absurd h (by decide))
    unfold expandArgs
    simp only [hl]
    rw [ih pre (fun t ht => hno t (List.mem_cons_of_mem _ ht))]

theorem stripAmp_no_dollar (ts : List CStr) (hno : ∀ t ∈ ts, ¬ (['$', '$'] <:+: t)) :
    ∀ t ∈ (if ts.getLast? = some ['&'] then ts.dropLast else ts), ¬ (['$', '$'] <:+: t) := by
  intro t ht
  split at ht
  · exact hno t (List.dropLast_subset ts ht)
  · exact hno t ht

/-- C7 (amended): for a line that does not start with a newline or `#`, whose tokens are
`t0 :: ts`, at most `MAX_ARGS` of them, none equal to `<` or `>` and none containing `$$`,
the program name is `t0`, the arguments are `t0` followed by `ts` without a final `&`
token, and background is requested (`foreground = 0`) exactly when the last token after
the program name is `&`. -/
theorem ampersand_trailing_only (stack : List Char) (pid : Nat) (raw_input : CStr)
    (t0 : CStr) (ts : List CStr)
    (hblank : raw_input.head? ≠ some '\n') (hcomment : raw_input.head? ≠ some '#')
    (htok : strtokAll raw_input = t0 :: ts)
    (hlen : (t0 :: ts).length ≤ MAX_ARGS)
    (hredir : ∀ t ∈ t0 :: ts, t ≠ "<".toList ∧ t ≠ ">".toList)
    (hdollar : ∀ t ∈ t0 :: ts, ¬ ("$$".toList <:+: t)) :
    getCommand stack pid raw_input =
      Except.ok
        { command := t0
          args := t0 :: (if ts.getLast? = some "&".toList then ts.dropLast else ts)
          in_file := []
          out_file := []
          foreground := if ts.getLast? = some "&".toList then 0 else 1 } := by
  have e1 : "<".toList = ['<'] := rfl
  have e2 : ">".toList = ['>'] := rfl
  have e3 : "&".toList = ['&'] := rfl
  have e4 : "$$".toList = ['$', '$'] := rfl
  rw [e1, e2] at hredir
  rw [e4] at hdollar
  rw [e3]
  have hne : raw_input ≠ [] := by
    intro h
    rw [h] at htok
    exact absurd htok (by simp [strtokAll, strtokAux])
  have hfirst : ¬(raw_input = [] ∨ strncmpEq raw_input "\n".toList 1 = true ∨
      strncmpEq raw_input "#".toList 1 = true) := by
    cases raw_input with
    | nil => exact absurd rfl hne
    | cons c cs =>
      have hc1 : c ≠ '\n' := fun h => hblank (by rw [h]; rfl)
      have hc2 : c ≠ '#' := fun h => hcomment (by rw [h]; rfl)
      have en : "\n".toList = ['\n'] := rfl
      have eh : "#".toList = ['#'] := rfl
      rw [en, eh]
      simp [strncmpEq, hc1, hc2]
  have hargs := argLoop_no_redirect ts [t0] 1
    (fun t ht => hredir t (List.mem_cons_of_mem _ ht))
    (by simp only [List.length_cons, List.length_nil] at hlen ⊢; omega)
  have hexp := expandArgs_no_dollar (Nat.toDigits 10 pid)
    ([t0] ++ (if ts.getLast? = some ['&'] then ts.dropLast else ts)) stack
    (by
      intro t ht
      rcases List.mem_append.mp ht with h | h
      · rw [List.mem_singleton] at h
        exact h ▸ hdollar t0 (List.mem_cons_self _ _)
      · exact stripAmp_no_dollar ts (fun u hu => hdollar u (List.mem_cons_of_mem _ hu)) t h)
  unfold getCommand
  rw [if_neg hfirst, htok]
  simp only [hargs, redirLoop, hexp]
  rfl

theorem ampersand_trailing_only_witness :
    getCommand [] 1234 "ls & -l &\n".toList =
      Except.ok
        { command := "ls".toList
          args := ["ls".toList, "&".toList, "-l".toList]
          in_file := []
          out_file := []
          foreground := 0 } := by
  have h := ampersand_trailing_only [] 1234 "ls & -l &\n".toList "ls".toList
    ["&".toList, "-l".toList, "&".toList] (by decide) (by decide) (by decide) (by decide)
    (by decide) (by decide)
  rw [h]
  rfl

/-- C7 (counterexample): the line `&` has `&` as its final token, yet background is not
requested and `&` is kept as the program name and `args[0]`. -/
theorem lone_ampersand_counterexample :
    strtokAll "&\n".toList = ["&".toList] ∧
      getCommand [] 1234 "&\n".toList =
        Except.ok
          { command := "&".toList
            args := ["&".toList]
            in_file := []
            out_file := []
            foreground := 1 } := by
  exact ⟨rfl, rfl⟩

/-! ## The expansion of `$$` -/

/-- Once an argument ends with the digits of the pid it keeps doing so: every further
expansion writes the digits last. -/
theorem expandLoop_suffix (digits : CStr) :
    ∀ (fuel j : Nat) (cur : Char) (arg : CStr) (pre : List Char),
      digits <:+ arg → digits <:+ (expandLoop digits fuel j cur arg pre).1 := by
  intro fuel
  induction fuel with
  | zero => intro j cur arg pre h; exact h
  | succ f ih =>
    intro j cur arg pre h
    unfold expandLoop
    by_cases hj : j < arg.length
    · rw [if_pos hj]
      by_cases hc : cur = '$' ∧ arg.getD j '\x00' = '$'
      · rw [if_pos hc]
        exact ih _ _ _ _ (List.suffix_append _ _)
      · rw [if_neg hc]
        exact ih _ _ _ _ h
    · rw [if_neg hj]
      exact h

theorem expandLoop_skip (digits : CStr) (fuel j : Nat) (cur : Char) (arg : CStr)
    (pre : List Char) (hj : j < arg.length) (hc : ¬(cur = '$' ∧ arg.getD j '\x00' = '$')) :
    expandLoop digits (fuel + 1) j cur arg pre =
      expandLoop digits fuel (j + 1) (arg.getD j '\x00') arg pre := by
  rw [expandLoop, if_pos hj, if_neg hc]

theorem expandLoop_hit (digits : CStr) (fuel j : Nat) (cur : Char) (arg : CStr)
    (pre : List Char) (hj : j < arg.length) (hc : cur = '$' ∧ arg.getD j '\x00' = '$') :
    expandLoop digits (fuel + 1) j cur arg pre =
      expandLoop digits fuel (j + 1) (arg.getD j '\x00')
        (cstr (strncpy pre arg (j - 1)) ++ digits) (strcpy (strncpy pre arg (j - 1)) []) := by
  rw [expandLoop, if_pos hj, if_pos hc]

/-- C3 (code at the failing input): for `echo a$$b` with pid 1234 the argument becomes a
string that ends with `1234`, whatever the uninitialised buffer holds: the `b` after `$$`
is gone.  On a zeroed buffer the argument is `a1234`, and `$$$$` becomes `1234`. -/
theorem dollar_expansion_drops_suffix :
    (∀ stack : List Char, ∃ x : CStr,
        getCommand stack 1234 "echo a$$b\n".toList =
          Except.ok
            { command := "echo".toList
              args := ["echo".toList, x]
              in_file := []
              out_file := []
              foreground := 1 } ∧
        "1234".toList <:+ x ∧ x ≠ "a1234b".toList) ∧
      getCommand (List.replicate INPUT_SIZE '\x00') 1234 "echo a$$b\n".toList =
        Except.ok
          { command := "echo".toList
            args := ["echo".toList, "a1234".toList]
            in_file := []
            out_file := []
            foreground := 1 } ∧
      getCommand (List.replicate INPUT_SIZE '\x00') 1234 "echo $$$$\n".toList =
        Except.ok
          { command := "echo".toList
            args := ["echo".toList, "1234".toList]
            in_file := []
            out_file := []
            foreground := 1 } := by
  refine ⟨?_, ?_, ?_⟩
  · intro stack
    have hd : Nat.toDigits 10 1234 = ['1', '2', '3', '4'] := by decide
    have hecho := expandLoop_no_dollar ['1', '2', '3', '4'] ['e', 'c', 'h', 'o'] (by decide)
      (expandFuel ['1', '2', '3', '4'] ['e', 'c', 'h', 'o'] stack) 0 '0' stack
      (by intro h; exact absurd h (by decide))
    have hfuel : expandFuel ['1', '2', '3', '4'] ['a', '$', '$', 'b'] stack =
        (stack.length + 6) + 1 + 1 + 1 := by
      simp only [expandFuel, List.length_cons, List.length_nil]; omega
    refine ⟨(expandLoop ['1', '2', '3', '4']
      (expandFuel ['1', '2', '3', '4'] ['a', '$', '$', 'b'] stack) 0 '0'
      ['a', '$', '$', 'b'] stack).1, ?_, ?_, ?_⟩
    · have htok : strtokAll "echo a$$b\n".toList = [['e', 'c', 'h', 'o'], ['a', '$', '$', 'b']] := by
        decide
      have hfirst : ¬("echo a$$b\n".toList = [] ∨ strncmpEq "echo a$$b\n".toList "\n".toList 1 = true ∨
          strncmpEq "echo a$$b\n".toList "#".toList 1 = true) := by decide
      have harg : argLoop [['a', '$', '$', 'b']] [['e', 'c', 'h', 'o']] 1 =
          Except.ok ([['e', 'c', 'h', 'o'], ['a', '$', '$', 'b']], 1, []) := rfl
      unfold getCommand
      rw [if_neg hfirst, htok]
      simp only [harg, redirLoop, hd, expandArgs, hecho]
      rfl
    · rw [hfuel]
      rw [expandLoop_skip _ _ _ _ _ _ (by decide) (by decide),
        expandLoop_skip _ _ _ _ _ _ (by decide) (by decide),
        expandLoop_hit _ _ _ _ _ _ (by decide) (by decide)]
      exact expandLoop_suffix _ _ _ _ _ _ (List.suffix_append _ _)
    · intro he
      have hs : "1234".toList <:+ "a1234b".toList := by
        rw [← he, hfuel,
          expandLoop_skip _ _ _ _ _ _ (by decide) (by decide),
          expandLoop_skip _ _ _ _ _ _ (by decide) (by decide),
          expandLoop_hit _ _ _ _ _ _ (by decide) (by decide)]
        exact expandLoop_suffix _ _ _ _ _ _ (List.suffix_append _ _)
      exact absurd hs (by decide)
  · decide!
  · decide!

/-! ## Rounds of the expansion loop -/

theorem digitChar_ne_dollar (n : Nat) : Nat.digitChar (n % 10) ≠ '$' := by
  have h : n % 10 < 10 := Nat.mod_lt _ (by decide)
  generalize n % 10 = m at h
  interval_cases m <;> decide

theorem toDigitsCore_no_dollar :
    ∀ (fuel n : Nat) (ds : List Char), '$' ∉ ds → '$' ∉ Nat.toDigitsCore 10 fuel n ds := by
  intro fuel
  induction fuel with
  | zero => intro n ds h; simpa [Nat.toDigitsCore] using h
  | succ f ih =>
    intro n ds h
    have hcons : '$' ∉ Nat.digitChar (n % 10) :: ds := by
      intro hm
      rcases List.mem_cons.mp hm with h1 | h1
      · exact digitChar_ne_dollar _ h1.symm
      · exact h h1
    unfold Nat.toDigitsCore
    simp only []
    split
    · exact hcons
    · exact ih _ _ hcons

/-- The decimal digits of a pid contain no `$`. -/
theorem toDigits_no_dollar (n : Nat) : '$' ∉ Nat.toDigits 10 n := by
  unfold Nat.toDigits
  exact toDigitsCore_no_dollar _ _ _ (by simp)

theorem cstr_length_le (buf : List Char) : (cstr buf).length ≤ buf.length := by
  unfold cstr
  exact (List.takeWhile_sublist _).length_le

theorem strncpy_length (pre : List Char) (arg : CStr) (n : Nat) (hn : n ≤ arg.length) :
    (strncpy pre arg n).length = max pre.length n := by
  unfold strncpy
  simp only [List.length_append, List.length_take, List.length_replicate, List.length_drop]
  omega

theorem strcpy_nil_length (pre : List Char) : (strcpy pre []).length = max pre.length 1 := by
  unfold strcpy
  simp only [List.length_append, List.length_cons, List.length_nil, List.length_drop]
  omega

theorem expandLoop_done (digits : CStr) (fuel j : Nat) (cur : Char) (arg : CStr)
    (pre : List Char) (hj : ¬ j < arg.length) :
    expandLoop digits fuel j cur arg pre = (arg, pre) := by
  cases fuel with
  | zero => rfl
  | succ f => rw [expandLoop, if_neg hj]

/-- After a first expansion (`arg` is some text followed by the digits, the text no
longer than `prefix`) rounds beyond `prefix` length + digits - `j` change nothing. -/
theorem expandLoop_fuel_after (digits : CStr) (hd : '$' ∉ digits) (extra : Nat) :
    ∀ (fuel j : Nat) (cur : Char) (arg : CStr) (pre : List Char),
      (∃ s, arg = s ++ digits ∧ s.length ≤ pre.length) →
      pre.length + digits.length ≤ fuel + j →
      expandLoop digits (fuel + extra) j cur arg pre = expandLoop digits fuel j cur arg pre := by
  intro fuel
  induction fuel with
  | zero =>
    intro j cur arg pre ⟨s, hs, hsl⟩ hb
    have hj : ¬ j < arg.length := by
      rw [hs, List.length_append]; omega
    rw [expandLoop_done _ _ _ _ _ _ hj, expandLoop_done _ _ _ _ _ _ hj]
  | succ f ih =>
    intro j cur arg pre ⟨s, hs, hsl⟩ hb
    have e : f + 1 + extra = (f + extra) + 1 := by omega
    rw [e]
    by_cases hj : j < arg.length
    · by_cases hc : cur = '$' ∧ arg.getD j '\x00' = '$'
      · rw [expandLoop_hit _ _ _ _ _ _ hj hc, expandLoop_hit _ _ _ _ _ _ hj hc]
        have hjs : j < s.length := by
          by_contra hge
          have hmem : arg.getD j '\x00' ∈ digits := by
            rw [List.getD_eq_getElem _ _ hj]
            have hj' : j < (s ++ digits).length := by rw [← hs]; exact hj
            have : arg[j] = (s ++ digits)[j] := by simp only [hs]
            rw [this, List.getElem_append_right (by omega)]
            exact List.getElem_mem _
          rw [hc.2] at hmem
          exact hd hmem
        have hl1 : (strncpy pre arg (j - 1)).length = pre.length := by
          rw [strncpy_length _ _ _ (by omega)]; omega
        have hl2 : (strcpy (strncpy pre arg (j - 1)) []).length = pre.length := by
          rw [strcpy_nil_length, hl1]; omega
        apply ih
        · refine ⟨cstr (strncpy pre arg (j - 1)), rfl, ?_⟩
          rw [hl2, ← hl1]
          exact cstr_length_le _
        · rw [hl2]; omega
      · rw [expandLoop_skip _ _ _ _ _ _ hj hc, expandLoop_skip _ _ _ _ _ _ hj hc]
        exact ih _ _ _ _ ⟨s, hs, hsl⟩ (by omega)
    · rw [expandLoop_done _ _ _ _ _ _ hj, expandLoop_done _ _ _ _ _ _ hj]

theorem expandLoop_fuel_before (digits : CStr) (hd : '$' ∉ digits) (extra : Nat) :
    ∀ (fuel j : Nat) (cur : Char) (arg : CStr) (pre : List Char),
      max pre.length arg.length + digits.length ≤ fuel + j →
      expandLoop digits (fuel + extra) j cur arg pre = expandLoop digits fuel j cur arg pre := by
  intro fuel
  induction fuel with
  | zero =>
    intro j cur arg pre hb
    have hj : ¬ j < arg.length := by omega
    rw [expandLoop_done _ _ _ _ _ _ hj, expandLoop_done _ _ _ _ _ _ hj]
  | succ f ih =>
    intro j cur arg pre hb
    have e : f + 1 + extra = (f + extra) + 1 := by omega
    rw [e]
    by_cases hj : j < arg.length
    · by_cases hc : cur = '$' ∧ arg.getD j '\x00' = '$'
      · rw [expandLoop_hit _ _ _ _ _ _ hj hc, expandLoop_hit _ _ _ _ _ _ hj hc]
        have hl1 : (strncpy pre arg (j - 1)).length = max pre.length (j - 1) :=
          strncpy_length _ _ _ (by omega)
        have hl2 : (strcpy (strncpy pre arg (j - 1)) []).length =
            max (max pre.length (j - 1)) 1 := by
          rw [strcpy_nil_length, hl1]
        apply expandLoop_fuel_after digits hd extra
        · refine ⟨cstr (strncpy pre arg (j - 1)), rfl, ?_⟩
          have := cstr_length_le (strncpy pre arg (j - 1))
          rw [hl2]; rw [hl1] at this; omega
        · rw [hl2]; omega
      · rw [expandLoop_skip _ _ _ _ _ _ hj hc, expandLoop_skip _ _ _ _ _ _ hj hc]
        exact ih _ _ _ _ (by omega)
    · rw [expandLoop_done _ _ _ _ _ _ hj, expandLoop_done _ _ _ _ _ _ hj]

/-- The rounds `expandArgs` grants are enough: with the digits of a pid, more rounds give
the same argument and the same buffer. -/
theorem expandLoop_fuel (pid : Nat) (arg : CStr) (pre : List Char) (extra : Nat) :
    expandLoop (Nat.toDigits 10 pid) (expandFuel (Nat.toDigits 10 pid) arg pre + extra) 0 '0'
        arg pre =
      expandLoop (Nat.toDigits 10 pid) (expandFuel (Nat.toDigits 10 pid) arg pre) 0 '0'
        arg pre := by
  apply expandLoop_fuel_before _ (toDigits_no_dollar pid)
  unfold expandFuel
  omega

/-- The scan of `bg_pids` needs no more than `MAX_BG_PROC + 1` rounds. -/
theorem scanLoop_fuel (bg_pids : List Int) (oob pid : Int) (extra : Nat) :
    ∀ (fuel i : Nat), MAX_BG_PROC < fuel + i →
      scanLoop bg_pids oob pid (fuel + extra) i = scanLoop bg_pids oob pid fuel i := by
  intro fuel
  induction fuel with
  | zero =>
    intro i hi
    cases extra with
    | zero => rfl
    | succ e =>
      rw [Nat.zero_add]
      unfold scanLoop
      rw [if_neg (by intro h; omega)]
  | succ f ih =>
    intro i hi
    have e : f + 1 + extra = (f + extra) + 1 := by omega
    rw [e]
    unfold scanLoop
    by_cases hc : bg_pids.getD i oob ≠ pid ∧ i < MAX_BG_PROC
    · rw [if_pos hc, if_pos hc]
      exact ih _ (by omega)
    · rw [if_neg hc, if_neg hc]

end Smallsh
